import Mathlib

/-!
Verification of the spline / CNF core of the TrajFlow repository (`TrajCNF.py`).

The numerical code operates channel-wise on tensors of rationals-in-floats;
we embed the per-channel computation over `ℚ`, with sequences modelled as
functions `ℕ → ℚ` together with an explicit length, mirroring the tensor of
knots `times : (N,)` and the (transposed) path `path : (..., N)`.

External collaborators (the learned MLP networks, the GRU, the torchdiffeq
`odeint_adjoint`, and `torch.distributions.MultivariateNormal`) are modelled
as abstract function parameters; every piece of glue code from `TrajCNF.py`
itself is embedded concretely.
-/

namespace TrajFlow

/-! ### `NaturalCubicSpline._tridiagonal_solve`

The source performs forward elimination over channel index `i` building
`new_A_diagonal` and `new_b` (the pivoted diagonal and right-hand side), then
back substitution building `outs` downwards from the last index.  We embed the
three passes as recursions on the index. -/

/-- Pivoted diagonal produced by the forward-elimination loop:
`new_A_diagonal[i] = A_diagonal[i] - w * A_upper[i-1]` with
`w = A_lower[i-1] / new_A_diagonal[i-1]`. -/
def elimDiag (A_lower A_diagonal A_upper : ℕ → ℚ) : ℕ → ℚ
  | 0 => A_diagonal 0
  | i + 1 =>
    A_diagonal (i + 1) - A_lower i / elimDiag A_lower A_diagonal A_upper i * A_upper i

/-- Eliminated right-hand side produced by the forward-elimination loop:
`new_b[i] = b[i] - w * new_b[i-1]`. -/
def elimRhs (A_lower A_diagonal A_upper b : ℕ → ℚ) : ℕ → ℚ
  | 0 => b 0
  | i + 1 =>
    b (i + 1) - A_lower i / elimDiag A_lower A_diagonal A_upper i *
      elimRhs A_lower A_diagonal A_upper b i

/-- Back-substitution pass; `backSub u dd bb k j` is `outs[k - 1 - j]`:
`outs[k-1] = new_b[k-1] / new_A_diagonal[k-1]` and
`outs[i] = (new_b[i] - A_upper[i] * outs[i+1]) / new_A_diagonal[i]`. -/
def backSub (A_upper dd bb : ℕ → ℚ) (k : ℕ) : ℕ → ℚ
  | 0 => bb (k - 1) / dd (k - 1)
  | j + 1 =>
    (bb (k - 2 - j) - A_upper (k - 2 - j) * backSub A_upper dd bb k j) / dd (k - 2 - j)

/-- `NaturalCubicSpline._tridiagonal_solve(b, A_upper, A_diagonal, A_lower)` for a
system of size `k`; the result at index `i` is `outs[i]`. -/
def tridiagonal_solve (b A_upper A_diagonal A_lower : ℕ → ℚ) (k i : ℕ) : ℚ :=
  backSub A_upper (elimDiag A_lower A_diagonal A_upper)
    (elimRhs A_lower A_diagonal A_upper b) k (k - 1 - i)

/-- Row `i` of the matrix-vector product `A · x` for the tridiagonal matrix of
size `k` described in the docstring of `_tridiagonal_solve` (sub-diagonal
`A_lower`, diagonal `A_diagonal`, super-diagonal `A_upper`). -/
def applyTridiag (A_lower A_diagonal A_upper : ℕ → ℚ) (k : ℕ) (x : ℕ → ℚ) (i : ℕ) : ℚ :=
  (if i = 0 then 0 else A_lower (i - 1) * x (i - 1)) + A_diagonal i * x i +
    (if i = k - 1 then 0 else A_upper i * x (i + 1))

/-! ### `NaturalCubicSpline._coefficients`

For a single channel `path : ℕ → ℚ` of length `N` over knot times
`times : ℕ → ℚ`.  The `N == 2` branch yields a single linear segment; the
`N > 2` branch solves the natural-spline knot-derivative system. -/

/-- `time_diffs = times[1:] - times[:-1]`. -/
def time_diffs (times : ℕ → ℚ) (i : ℕ) : ℚ := times (i + 1) - times i

/-- `time_diffs_reciprocal = time_diffs.reciprocal()`. -/
def time_diffs_reciprocal (times : ℕ → ℚ) (i : ℕ) : ℚ := (time_diffs times i)⁻¹

/-- `three_path_diffs = 3 * (path[..., 1:] - path[..., :-1])`. -/
def three_path_diffs (path : ℕ → ℚ) (i : ℕ) : ℚ := 3 * (path (i + 1) - path i)

/-- `path_diffs_scaled = three_path_diffs * time_diffs_reciprocal_squared`. -/
def path_diffs_scaled (times path : ℕ → ℚ) (i : ℕ) : ℚ :=
  three_path_diffs path i * (time_diffs_reciprocal times i) ^ 2

/-- The diagonal of the knot-derivative system: entries `0..N-2` start as
`time_diffs_reciprocal`, the last entry starts as `0`, entries `1..N-1` get
`time_diffs_reciprocal[i-1]` added, and everything is doubled. -/
def system_diagonal (times : ℕ → ℚ) (N : ℕ) (i : ℕ) : ℚ :=
  2 * ((if i < N - 1 then time_diffs_reciprocal times i else 0) +
    (if 1 ≤ i then time_diffs_reciprocal times (i - 1) else 0))

/-- The right-hand side of the knot-derivative system, assembled the same way
from `path_diffs_scaled`. -/
def system_rhs (times path : ℕ → ℚ) (N : ℕ) (i : ℕ) : ℚ :=
  (if i < N - 1 then path_diffs_scaled times path i else 0) +
    (if 1 ≤ i then path_diffs_scaled times path (i - 1) else 0)

/-- `knot_derivatives = _tridiagonal_solve(system_rhs, tdr, system_diagonal, tdr)`. -/
def knot_derivatives (times path : ℕ → ℚ) (N : ℕ) (i : ℕ) : ℚ :=
  tridiagonal_solve (system_rhs times path N) (time_diffs_reciprocal times)
    (system_diagonal times N) (time_diffs_reciprocal times) N i

/-- Segment coefficient `a`: `path[..., :1]` for `N == 2`, `path[..., :-1]`
otherwise — in both cases the path value at the left knot of the segment. -/
def coeffs_a (times path : ℕ → ℚ) (N i : ℕ) : ℚ := path i

/-- Segment coefficient `b`. -/
def coeffs_b (times path : ℕ → ℚ) (N i : ℕ) : ℚ :=
  if N = 2 then (path 1 - path 0) / (times 1 - times 0)
  else knot_derivatives times path N i

/-- Segment coefficient `two_c` (the stored doubled quadratic coefficient). -/
def coeffs_two_c (times path : ℕ → ℚ) (N i : ℕ) : ℚ :=
  if N = 2 then 0
  else (2 * three_path_diffs path i * time_diffs_reciprocal times i -
      4 * knot_derivatives times path N i - 2 * knot_derivatives times path N (i + 1)) *
    time_diffs_reciprocal times i

/-- Segment coefficient `three_d` (the stored tripled cubic coefficient). -/
def coeffs_three_d (times path : ℕ → ℚ) (N i : ℕ) : ℚ :=
  if N = 2 then 0
  else (-(2 * three_path_diffs path i) * time_diffs_reciprocal times i +
      3 * (knot_derivatives times path N i + knot_derivatives times path N (i + 1))) *
    (time_diffs_reciprocal times i) ^ 2

/-- `NaturalCubicSpline.__init__` for a (multi-channel) control path: the only
validation performed by the source is the `length < 2` check raised inside
`_coefficients` (identically for every channel); the knot times are never
checked for monotonicity. -/
def naturalCubicSpline_init (times : ℕ → ℚ) (path : ℕ → ℕ → ℚ) (N : ℕ) :
    Except String (ℕ → (ℕ → ℚ) × (ℕ → ℚ) × (ℕ → ℚ) × (ℕ → ℚ)) :=
  if N < 2 then Except.error ("Must have a time dimension of size at least 2.")
  else Except.ok fun c =>
    (coeffs_a times (fun i => path i c) N, coeffs_b times (fun i => path i c) N,
     coeffs_two_c times (fun i => path i c) N, coeffs_three_d times (fun i => path i c) N)

/-- Whether an `Except` value is a success. -/
def isOkE {ε α : Type _} : Except ε α → Bool
  | Except.ok _ => true
  | Except.error _ => false

/-! ### `NaturalCubicSpline._interpret_t`, `evaluate` and `derivative` -/

/-- `_interpret_t`: `index = (t > times).sum() - 1` clamped to
`[0, maxlen]` with `maxlen = b.size(-2) - 1 = (N - 1) - 1`.  Natural-number
subtraction realises the lower clamp at `0`. -/
def interpret_index (times : ℕ → ℚ) (N : ℕ) (t : ℚ) : ℕ :=
  min (((Finset.range N).filter fun j => times j < t).card - 1) (N - 1 - 1)

/-- `fractional_part = t - times[index]`. -/
def fractional_part (times : ℕ → ℚ) (N : ℕ) (t : ℚ) : ℚ :=
  t - times (interpret_index times N t)

/-- `NaturalCubicSpline.evaluate` on one channel:
`a + (b + (0.5 * two_c + three_d * frac / 3) * frac) * frac`. -/
def evaluate (times path : ℕ → ℚ) (N : ℕ) (t : ℚ) : ℚ :=
  coeffs_a times path N (interpret_index times N t) +
    (coeffs_b times path N (interpret_index times N t) +
      (1 / 2 * coeffs_two_c times path N (interpret_index times N t) +
        coeffs_three_d times path N (interpret_index times N t) *
          fractional_part times N t / 3) * fractional_part times N t) *
    fractional_part times N t

/-- `NaturalCubicSpline.derivative` on one channel:
`b + (two_c + three_d * frac) * frac`. -/
def derivative (times path : ℕ → ℚ) (N : ℕ) (t : ℚ) : ℚ :=
  coeffs_b times path N (interpret_index times N t) +
    (coeffs_two_c times path N (interpret_index times N t) +
      coeffs_three_d times path N (interpret_index times N t) * fractional_part times N t) *
    fractional_part times N t

/-- Channel-wise `evaluate` of a multi-channel control path (the source stores
the path transposed and applies the identical per-channel computation). -/
def evaluate_vec (times : ℕ → ℚ) (path : ℕ → ℕ → ℚ) (N : ℕ) (t : ℚ) (c : ℕ) : ℚ :=
  evaluate times (fun i => path i c) N t

/-- Channel-wise `derivative` of a multi-channel control path. -/
def derivative_vec (times : ℕ → ℚ) (path : ℕ → ℕ → ℚ) (N : ℕ) (t : ℚ) (c : ℕ) : ℚ :=
  derivative times (fun i => path i c) N t

/-! ### Correctness of the tridiagonal solver -/

theorem elimDiag_zero (A_lower A_diagonal A_upper : ℕ → ℚ) :
    elimDiag A_lower A_diagonal A_upper 0 = A_diagonal 0 := rfl

theorem elimDiag_succ (A_lower A_diagonal A_upper : ℕ → ℚ) (i : ℕ) :
    elimDiag A_lower A_diagonal A_upper (i + 1) =
      A_diagonal (i + 1) - A_lower i / elimDiag A_lower A_diagonal A_upper i * A_upper i := rfl

theorem elimRhs_zero (A_lower A_diagonal A_upper b : ℕ → ℚ) :
    elimRhs A_lower A_diagonal A_upper b 0 = b 0 := rfl

theorem elimRhs_succ (A_lower A_diagonal A_upper b : ℕ → ℚ) (i : ℕ) :
    elimRhs A_lower A_diagonal A_upper b (i + 1) =
      b (i + 1) - A_lower i / elimDiag A_lower A_diagonal A_upper i *
        elimRhs A_lower A_diagonal A_upper b i := rfl

/-- Unfolding at the last row: `outs[k-1] = new_b[k-1] / new_A_diagonal[k-1]`. -/
theorem tridiagonal_solve_last (b A_upper A_diagonal A_lower : ℕ → ℚ) (k : ℕ) :
    tridiagonal_solve b A_upper A_diagonal A_lower k (k - 1) =
      elimRhs A_lower A_diagonal A_upper b (k - 1) /
        elimDiag A_lower A_diagonal A_upper (k - 1) := by
  unfold tridiagonal_solve
  have h : k - 1 - (k - 1) = 0 := by omega
  rw [h, backSub]

/-- Unfolding at an interior row:
`outs[i] = (new_b[i] - A_upper[i] * outs[i+1]) / new_A_diagonal[i]`. -/
theorem tridiagonal_solve_step (b A_upper A_diagonal A_lower : ℕ → ℚ) (k i : ℕ)
    (hik : i + 1 < k) :
    tridiagonal_solve b A_upper A_diagonal A_lower k i =
      (elimRhs A_lower A_diagonal A_upper b i -
        A_upper i * tridiagonal_solve b A_upper A_diagonal A_lower k (i + 1)) /
      elimDiag A_lower A_diagonal A_upper i := by
  unfold tridiagonal_solve
  have h1 : k - 1 - i = (k - 2 - i) + 1 := by omega
  have h2 : k - 1 - (i + 1) = k - 2 - i := by omega
  have h3 : k - 2 - (k - 2 - i) = i := by omega
  rw [h1, h2, backSub, h3]

/-- The solved row identity produced by back substitution at interior rows. -/
theorem tridiagonal_solve_row (b A_upper A_diagonal A_lower : ℕ → ℚ) (k i : ℕ)
    (hik : i + 1 < k) (hd : elimDiag A_lower A_diagonal A_upper i ≠ 0) :
    elimDiag A_lower A_diagonal A_upper i * tridiagonal_solve b A_upper A_diagonal A_lower k i +
      A_upper i * tridiagonal_solve b A_upper A_diagonal A_lower k (i + 1) =
      elimRhs A_lower A_diagonal A_upper b i := by
  rw [tridiagonal_solve_step b A_upper A_diagonal A_lower k i hik]
  field_simp

/-- The solved row identity at the last row. -/
theorem tridiagonal_solve_row_last (b A_upper A_diagonal A_lower : ℕ → ℚ) (k : ℕ)
    (hd : elimDiag A_lower A_diagonal A_upper (k - 1) ≠ 0) :
    elimDiag A_lower A_diagonal A_upper (k - 1) *
        tridiagonal_solve b A_upper A_diagonal A_lower k (k - 1) =
      elimRhs A_lower A_diagonal A_upper b (k - 1) := by
  rw [tridiagonal_solve_last b A_upper A_diagonal A_lower k]
  field_simp

/-- Thomas-algorithm correctness: if every pivoted diagonal entry is non-zero,
the output of `_tridiagonal_solve` solves `A · x = b` row by row. -/
theorem tridiagonal_solve_solves (k : ℕ) (A_lower A_diagonal A_upper b : ℕ → ℚ)
    (hpiv : ∀ i, i < k → elimDiag A_lower A_diagonal A_upper i ≠ 0) :
    ∀ i, i < k →
      applyTridiag A_lower A_diagonal A_upper k
        (tridiagonal_solve b A_upper A_diagonal A_lower k) i = b i := by
  intro i hi
  unfold applyTridiag
  rcases i with _ | j
  · -- first row
    by_cases hlast : (0 : ℕ) = k - 1
    · -- k = 1: the single row reads `A_diagonal 0 * x 0 = b 0`
      have hk : k = 1 := by omega
      subst hk
      have h := tridiagonal_solve_row_last b A_upper A_diagonal A_lower 1 (hpiv 0 hi)
      simpa [elimDiag_zero, elimRhs_zero] using h
    · -- k ≥ 2: the first row reads `A_diagonal 0 * x 0 + A_upper 0 * x 1 = b 0`
      have h := tridiagonal_solve_row b A_upper A_diagonal A_lower k 0 (by omega) (hpiv 0 hi)
      simp only [elimDiag_zero, elimRhs_zero] at h
      simpa [if_neg hlast] using h
  · -- rows 1 .. k-1, with the eliminated lower entry folded back in
    have hjk : j + 1 < k := hi
    have hdj := hpiv j (by omega)
    have h1 := tridiagonal_solve_row b A_upper A_diagonal A_lower k j (by omega) hdj
    have hd2 : A_diagonal (j + 1) =
        elimDiag A_lower A_diagonal A_upper (j + 1) +
          A_lower j / elimDiag A_lower A_diagonal A_upper j * A_upper j := by
      rw [elimDiag_succ]; ring
    have hb2 : b (j + 1) =
        elimRhs A_lower A_diagonal A_upper b (j + 1) +
          A_lower j / elimDiag A_lower A_diagonal A_upper j *
            elimRhs A_lower A_diagonal A_upper b j := by
      rw [elimRhs_succ]; ring
    have hw : A_lower j / elimDiag A_lower A_diagonal A_upper j *
        elimDiag A_lower A_diagonal A_upper j = A_lower j := div_mul_cancel₀ _ hdj
    by_cases hlast : j + 1 = k - 1
    · -- last row: `A_lower j * x j + A_diagonal (j+1) * x (j+1) = b (j+1)`
      have h2 := tridiagonal_solve_row_last b A_upper A_diagonal A_lower k
        (by rw [← hlast]; exact hpiv (j + 1) hi)
      rw [← hlast] at h2
      simp only [if_neg (Nat.succ_ne_zero j), if_pos hlast, Nat.add_sub_cancel, add_zero]
      rw [hd2, hb2]
      linear_combination h2 + A_lower j / elimDiag A_lower A_diagonal A_upper j * h1 -
        tridiagonal_solve b A_upper A_diagonal A_lower k j * hw
    · -- interior row: `A_lower j * x j + A_diagonal (j+1) * x (j+1) + A_upper (j+1) * x (j+2) = b (j+1)`
      have h2 := tridiagonal_solve_row b A_upper A_diagonal A_lower k (j + 1)
        (by omega) (hpiv (j + 1) hi)
      simp only [if_neg (Nat.succ_ne_zero j), if_neg hlast, Nat.add_sub_cancel]
      rw [hd2, hb2]
      linear_combination h2 + A_lower j / elimDiag A_lower A_diagonal A_upper j * h1 -
        tridiagonal_solve b A_upper A_diagonal A_lower k j * hw

/-- C3: for every tridiagonal system of size `k` whose pivoted diagonal entries
(as produced by forward elimination with multiplier `lower[i-1]/diagonal[i-1]`)
are all non-zero, `_tridiagonal_solve` returns an `x` with `A · x = b`; in
particular, for the discrete Poisson system with constant diagonal `2` and
off-diagonals `-1` and right-hand side `1`, the output equals the analytic
solution `(3/2, 2, 3/2)`. -/
theorem C3_tridiagonal_solver_correct :
    (∀ (k : ℕ) (A_lower A_diagonal A_upper b : ℕ → ℚ),
        (∀ i, i < k → elimDiag A_lower A_diagonal A_upper i ≠ 0) →
        ∀ i, i < k →
          applyTridiag A_lower A_diagonal A_upper k
            (tridiagonal_solve b A_upper A_diagonal A_lower k) i = b i) ∧
    (∀ i, i < 3 →
        tridiagonal_solve (fun _ => 1) (fun _ => -1) (fun _ => 2) (fun _ => -1) 3 i =
          (if i = 1 then (2 : ℚ) else 3 / 2)) := by
  constructor
  · exact tridiagonal_solve_solves
  · intro i hi
    interval_cases i <;> norm_num [tridiagonal_solve, backSub, elimDiag, elimRhs]

/-- Witness for C3 at the discrete Poisson system of size 3: the pivot
hypothesis holds there, and the second row of `A · x = b` is recovered. -/
theorem C3_tridiagonal_solver_correct_witness :
    (∀ i, i < 3 → elimDiag (fun _ => -1) (fun _ => 2) (fun _ => -1) i ≠ 0) ∧
    applyTridiag (fun _ => -1) (fun _ => 2) (fun _ => -1) 3
      (tridiagonal_solve (fun _ => 1) (fun _ => -1) (fun _ => 2) (fun _ => -1) 3) 1 = 1 := by
  have hpiv : ∀ i, i < 3 → elimDiag (fun _ => (-1 : ℚ)) (fun _ => 2) (fun _ => -1) i ≠ 0 := by
    intro i hi
    interval_cases i <;> norm_num [elimDiag]
  exact ⟨hpiv, C3_tridiagonal_solver_correct.1 3 _ _ _ _ hpiv 1 (by norm_num)⟩

/-! ### Knot-time monotonicity and segment lookup at knots -/

/-- Adjacent strict increase of the knot times extends to all pairs below `N`. -/
theorem times_lt_of_index_lt (times : ℕ → ℚ) (N : ℕ)
    (hmono : ∀ i, i < N - 1 → times i < times (i + 1)) :
    ∀ j k, j < k → k < N → times j < times k := by
  intro j k
  induction k with
  | zero => omega
  | succ k ih =>
    intro hjk hkN
    rcases Nat.lt_succ_iff_lt_or_eq.mp hjk with h | h
    · exact lt_trans (ih h (by omega)) (hmono k (by omega))
    · subst h
      exact hmono j (by omega)

/-- At a knot time, the strict count `(t > times).sum()` selects exactly the
earlier knots. -/
theorem filter_lt_at_knot (times : ℕ → ℚ) (N : ℕ)
    (hmono : ∀ i, i < N - 1 → times i < times (i + 1)) (i : ℕ) (hi : i < N) :
    ((Finset.range N).filter fun j => times j < times i) = Finset.range i := by
  ext j
  simp only [Finset.mem_filter, Finset.mem_range]
  constructor
  · rintro ⟨hjN, hlt⟩
    by_contra hij
    push_neg at hij
    rcases eq_or_lt_of_le hij with h | h
    · exact absurd hlt (by rw [h]; exact lt_irrefl _)
    · exact absurd hlt (not_lt.mpr (le_of_lt (times_lt_of_index_lt times N hmono i j h hjN)))
  · intro hji
    exact ⟨by omega, times_lt_of_index_lt times N hmono j i hji hi⟩

/-- `_interpret_t` at the `i`-th knot time yields index `min (i-1) (N-2)`. -/
theorem interpret_index_at_knot (times : ℕ → ℚ) (N : ℕ)
    (hmono : ∀ i, i < N - 1 → times i < times (i + 1)) (i : ℕ) (hi : i < N) :
    interpret_index times N (times i) = min (i - 1) (N - 1 - 1) := by
  unfold interpret_index
  rw [filter_lt_at_knot times N hmono i hi, Finset.card_range]

/-- Single-channel interpolation exactness: evaluating the spline at the `i`-th
knot time returns the `i`-th path value. -/
theorem evaluate_at_knot (times path : ℕ → ℚ) (N : ℕ) (h2 : 2 ≤ N)
    (hmono : ∀ i, i < N - 1 → times i < times (i + 1)) (i : ℕ) (hi : i < N) :
    evaluate times path N (times i) = path i := by
  rcases i with _ | m
  · -- the first knot falls on the left end of segment 0
    have hidx : interpret_index times N (times 0) = 0 := by
      rw [interpret_index_at_knot times N hmono 0 hi]
      omega
    simp [evaluate, fractional_part, hidx, coeffs_a]
  · -- knot `m+1` is the right end of segment `m`
    have hidx : interpret_index times N (times (m + 1)) = m := by
      rw [interpret_index_at_knot times N hmono (m + 1) hi]
      omega
    have hΔ : times (m + 1) - times m ≠ 0 :=
      sub_ne_zero.mpr (ne_of_gt (hmono m (by omega)))
    by_cases hN2 : N = 2
    · -- the linear branch
      have hm : m = 0 := by omega
      subst hm
      simp only [evaluate, fractional_part, hidx, coeffs_a, coeffs_b, coeffs_two_c,
        coeffs_three_d, if_pos hN2]
      field_simp
    · -- the cubic branch; the knot-derivative values stay abstract here
      simp only [evaluate, fractional_part, hidx, coeffs_a, coeffs_b, coeffs_two_c,
        coeffs_three_d, if_neg hN2, time_diffs_reciprocal, time_diffs, three_path_diffs]
      field_simp
      ring

/-- C2: for every control path with strictly increasing times and length
`N ≥ 2`, evaluating the spline at any knot time reproduces the sampled value
exactly, in every channel. -/
theorem C2_interpolation_exactness (times : ℕ → ℚ) (path : ℕ → ℕ → ℚ) (N : ℕ)
    (h2 : 2 ≤ N) (hmono : ∀ i, i < N - 1 → times i < times (i + 1)) :
    ∀ i, i < N → ∀ c, evaluate_vec times path N (times i) c = path i c := by
  intro i hi c
  exact evaluate_at_knot times (fun j => path j c) N h2 hmono i hi

/-- Witness for C2 on the 3-knot path `(0,0), (1,2), (2,1)`. -/
theorem C2_interpolation_exactness_witness :
    2 ≤ 3 ∧ (∀ i, i < 3 - 1 →
        (fun j => (if j = 0 then (0 : ℚ) else if j = 1 then 1 else 2)) i <
        (fun j => (if j = 0 then (0 : ℚ) else if j = 1 then 1 else 2)) (i + 1)) ∧
      evaluate_vec (fun j => if j = 0 then (0 : ℚ) else if j = 1 then 1 else 2)
        (fun j _ => if j = 0 then (0 : ℚ) else if j = 1 then 2 else 1) 3
        ((fun j => (if j = 0 then (0 : ℚ) else if j = 1 then 1 else 2)) 1) 0 =
        (fun j _ => if j = 0 then (0 : ℚ) else if j = 1 then 2 else 1) 1 0 := by
  have hmono : ∀ i, i < 3 - 1 →
      (fun j => (if j = 0 then (0 : ℚ) else if j = 1 then 1 else 2)) i <
      (fun j => (if j = 0 then (0 : ℚ) else if j = 1 then 1 else 2)) (i + 1) := by
    intro i hi
    interval_cases i <;> norm_num
  exact ⟨by norm_num, hmono,
    C2_interpolation_exactness _ _ 3 (by norm_num) hmono 1 (by norm_num) 0⟩

/-! ### Segment location (C4) -/

/-- The segment-index formula claimed by the spec: `count(knot_times ≤ t) - 1`,
clamped to `[0, N-2]` (stated over `ℤ` so the clamp is explicit). -/
def spec_locate_le (times : ℕ → ℚ) (N : ℕ) (t : ℚ) : ℤ :=
  max 0 (min ((((Finset.range N).filter fun j => times j ≤ t).card : ℤ) - 1) ((N : ℤ) - 2))

/-- The amended segment-index formula: `count(knot_times < t) - 1`, clamped to
`[0, N-2]`. -/
def spec_locate_lt (times : ℕ → ℚ) (N : ℕ) (t : ℚ) : ℤ :=
  max 0 (min ((((Finset.range N).filter fun j => times j < t).card : ℤ) - 1) ((N : ℤ) - 2))

/-- C4 counterexample: at the interior knot time `t = 1` of the strictly
increasing times `(0, 1, 2)`, the segment index of the code is `0` (it counts knots
strictly below `t`), while the claimed formula `count(knot_times ≤ t) - 1`
clamped to `[0, N-2]` gives `1`. -/
theorem C4_counterexample :
    ((interpret_index (fun j => if j = 0 then (0 : ℚ) else if j = 1 then 1 else 2) 3 1 : ℤ) ≠
      spec_locate_le (fun j => if j = 0 then (0 : ℚ) else if j = 1 then 1 else 2) 3 1) := by
  norm_num [interpret_index, spec_locate_le, Finset.filter_insert, Finset.range_succ,
    Finset.filter_singleton]

/-- C4 (amended): `evaluate` and `derivative` locate the segment index as
`count(knot_times < t) - 1` (strict comparison) clamped to `[0, N-2]`; the
index never exceeds `N-2`, and a time outside the sampled range uses the
corresponding boundary segment, with no error raised. -/
theorem C4_segment_location (times : ℕ → ℚ) (N : ℕ) (t : ℚ) (h2 : 2 ≤ N)
    (hmono : ∀ i, i < N - 1 → times i < times (i + 1)) :
    (interpret_index times N t : ℤ) = spec_locate_lt times N t ∧
    interpret_index times N t ≤ N - 2 ∧
    (t < times 0 → interpret_index times N t = 0) ∧
    (times (N - 1) < t → interpret_index times N t = N - 2) := by
  have hcard : ((Finset.range N).filter fun j => times j < t).card ≤ N := by
    calc ((Finset.range N).filter fun j => times j < t).card
        ≤ (Finset.range N).card := Finset.card_filter_le _ _
      _ = N := Finset.card_range N
  refine ⟨?_, ?_, ?_, ?_⟩
  · unfold interpret_index spec_locate_lt
    omega
  · unfold interpret_index
    omega
  · intro ht
    have hempty : ((Finset.range N).filter fun j => times j < t) = ∅ := by
      refine Finset.filter_eq_empty_iff.mpr ?_
      intro j hj
      simp only [Finset.mem_range] at hj
      intro hlt
      have h0j : times 0 ≤ times j := by
        rcases Nat.eq_zero_or_pos j with h | h
        · rw [h]
        · exact le_of_lt (times_lt_of_index_lt times N hmono 0 j h hj)
      linarith
    unfold interpret_index
    rw [hempty]
    simp
  · intro ht
    have hfull : ((Finset.range N).filter fun j => times j < t) = Finset.range N := by
      refine Finset.filter_eq_self.mpr ?_
      intro j hj
      simp only [Finset.mem_range] at hj
      have hle : times j ≤ times (N - 1) := by
        rcases eq_or_lt_of_le (Nat.lt_succ_iff.mp (by omega : j < (N - 1) + 1)) with h | h
        · rw [h]
        · exact le_of_lt (times_lt_of_index_lt times N hmono j (N - 1) h (by omega))
      linarith
    unfold interpret_index
    rw [hfull, Finset.card_range]
    omega

/-- Witness for C4 on times `(0, 1, 2)` at the out-of-range time `t = 7`:
the boundary segment `N - 2 = 1` is used. -/
theorem C4_segment_location_witness :
    2 ≤ 3 ∧ (∀ i, i < 3 - 1 →
        (fun j => (if j = 0 then (0 : ℚ) else if j = 1 then 1 else 2)) i <
        (fun j => (if j = 0 then (0 : ℚ) else if j = 1 then 1 else 2)) (i + 1)) ∧
      (fun j => (if j = 0 then (0 : ℚ) else if j = 1 then 1 else 2)) (3 - 1) < 7 ∧
      interpret_index (fun j => if j = 0 then (0 : ℚ) else if j = 1 then 1 else 2) 3 7 = 3 - 2 := by
  have hmono : ∀ i, i < 3 - 1 →
      (fun j => (if j = 0 then (0 : ℚ) else if j = 1 then 1 else 2)) i <
      (fun j => (if j = 0 then (0 : ℚ) else if j = 1 then 1 else 2)) (i + 1) := by
    intro i hi
    interval_cases i <;> norm_num
  exact ⟨by norm_num, hmono, by norm_num,
    (C4_segment_location _ 3 7 (by norm_num) hmono).2.2.2 (by norm_num)⟩

/-! ### Construction-time validation (C5) -/

/-- C5 counterexample: a control path with three equal (hence non-increasing)
knot times is accepted by `NaturalCubicSpline.__init__` — no error is raised;
the only construction-time check is `length < 2`. -/
theorem C5_counterexample :
    isOkE (naturalCubicSpline_init (fun _ => (0 : ℚ)) (fun _ _ => 0) 3) = true ∧
      ¬ (∀ i, i < 3 - 1 → (fun _ => (0 : ℚ)) i < (fun _ => (0 : ℚ)) (i + 1)) := by
  constructor
  · rfl
  · intro h
    exact absurd (h 0 (by norm_num)) (by norm_num)

/-- C5 (amended): `NaturalCubicSpline` construction fails fast exactly when the
control path has fewer than 2 time points; the knot times are never validated,
so construction succeeds for every path of length ≥ 2, strictly increasing
or not. -/
theorem C5_construction_guard (times : ℕ → ℚ) (path : ℕ → ℕ → ℚ) (N : ℕ) :
    isOkE (naturalCubicSpline_init times path N) = true ↔ 2 ≤ N := by
  unfold naturalCubicSpline_init
  by_cases h : N < 2 <;> simp [h, isOkE] <;> omega

/-- Witness for C5: a two-point path is accepted. -/
theorem C5_construction_guard_witness :
    isOkE (naturalCubicSpline_init (fun j => (j : ℚ)) (fun j _ => (j : ℚ)) 2) = true :=
  (C5_construction_guard (fun j => (j : ℚ)) (fun j _ => (j : ℚ)) 2).mpr (by norm_num)

/-! ### Two-point degenerate case (C6) -/

/-- C6: a control path of exactly two knots yields a purely linear
interpolant: `b` is the slope `(v1 - v0) / (t1 - t0)`, the stored `two_c` and
`three_d` coefficients are zero, and `derivative` is constant, equal to that
slope at every time `t` (inside or outside `[t0, t1]`), in every channel. -/
theorem C6_two_point_linear (times : ℕ → ℚ) (path : ℕ → ℕ → ℚ)
    (h01 : times 0 < times 1) (t : ℚ) (c : ℕ) :
    coeffs_b times (fun i => path i c) 2 0 =
        (path 1 c - path 0 c) / (times 1 - times 0) ∧
    coeffs_two_c times (fun i => path i c) 2 0 = 0 ∧
    coeffs_three_d times (fun i => path i c) 2 0 = 0 ∧
    derivative_vec times path 2 t c = (path 1 c - path 0 c) / (times 1 - times 0) := by
  have hidx : interpret_index times 2 t = 0 := by
    unfold interpret_index
    omega
  refine ⟨by simp [coeffs_b], by simp [coeffs_two_c], by simp [coeffs_three_d], ?_⟩
  simp [derivative_vec, derivative, hidx, coeffs_b, coeffs_two_c, coeffs_three_d]

/-- Witness for C6 on the two-point path `(0, 0), (1, 2)` at the
out-of-range time `t = 5`. -/
theorem C6_two_point_linear_witness :
    (fun j => (j : ℚ)) 0 < (fun j => (j : ℚ)) 1 ∧
      derivative_vec (fun j => (j : ℚ)) (fun j _ => 2 * (j : ℚ)) 2 5 0 =
        ((fun j _ => 2 * (j : ℚ)) 1 0 - (fun j _ => 2 * (j : ℚ)) 0 0) /
          ((fun j => (j : ℚ)) 1 - (fun j => (j : ℚ)) 0) :=
  ⟨by norm_num,
    (C6_two_point_linear (fun j => (j : ℚ)) (fun j _ => 2 * (j : ℚ)) (by norm_num) 5 0).2.2.2⟩

/-! ### `derivative` is the exact derivative of `evaluate` (C9) -/

/-- The cubic polynomial (in the local offset) whose Horner form `evaluate`
computes on segment `i`:
`a + b·f + (two_c/2)·f² + (three_d/3)·f³`. -/
noncomputable def segment_poly (times path : ℕ → ℚ) (N i : ℕ) : Polynomial ℚ :=
  Polynomial.C (coeffs_a times path N i) +
    Polynomial.C (coeffs_b times path N i) * Polynomial.X +
    Polynomial.C (1 / 2 * coeffs_two_c times path N i) * Polynomial.X ^ 2 +
    Polynomial.C (coeffs_three_d times path N i / 3) * Polynomial.X ^ 3

/-- C9: on the segment selected by `_interpret_t` with fractional part `f`,
`evaluate` computes exactly the segment polynomial at `f`, and `derivative`
computes exactly the formal derivative of that same polynomial at the same
`f` — both using the same segment index and fractional part. -/
theorem C9_derivative_of_evaluate (times path : ℕ → ℚ) (N : ℕ) (t : ℚ) :
    evaluate times path N t =
      (segment_poly times path N (interpret_index times N t)).eval
        (fractional_part times N t) ∧
    derivative times path N t =
      (Polynomial.derivative (segment_poly times path N (interpret_index times N t))).eval
        (fractional_part times N t) := by
  constructor
  · simp only [evaluate, segment_poly, Polynomial.eval_add, Polynomial.eval_mul,
      Polynomial.eval_pow, Polynomial.eval_C, Polynomial.eval_X]
    ring
  · simp only [derivative, segment_poly, map_add, Polynomial.derivative_C,
      Polynomial.derivative_C_mul, Polynomial.derivative_X, Polynomial.derivative_X_pow,
      Polynomial.eval_add, Polynomial.eval_mul, Polynomial.eval_pow, Polynomial.eval_C,
      Polynomial.eval_X, Polynomial.eval_natCast, Polynomial.eval_one, Polynomial.eval_zero]
    ring

/-! ### `CasualEncoder.forward` (C1)

The learned networks (`embed`, `readout`, the CDE drift `f` together with its
matrix-vector product against the spline derivative) and the external
torchdiffeq solver `odeint_adjoint` are modelled as abstract functions over an
abstract latent-state type `H`; the glue code of `CasualEncoder.forward` is
embedded concretely on top of the spline embedding above. -/

structure EncoderNets (H : Type) where
  /-- The `embed` MLP, mapping a channel vector to a latent state. -/
  embed : (ℕ → ℚ) → H
  /-- The `readout` MLP. -/
  readout : H → H
  /-- `VectorField.forward` body: `(f (z) @ dX_dt)`, abstracted as a function
  of the state and the spline-derivative channel vector. -/
  cde : H → (ℕ → ℚ) → H
  /-- `odeint_adjoint(field, z0, t)`: the solution trajectory, indexed by the
  position in the time tensor `t` (of length `T`). -/
  odeint : (ℚ → H → H) → H → (ℕ → ℚ) → ℕ → ℕ → H

/-- `VectorField(dX_dt=spline, f).forward(t, z) = f(z) @ spline.derivative(t)`. -/
def vector_field_forward {H : Type} (M : EncoderNets H) (times : ℕ → ℚ)
    (path : ℕ → ℕ → ℚ) (N : ℕ) (t : ℚ) (z : H) : H :=
  M.cde z (fun c => derivative_vec times path N t c)

/-- `CasualEncoder.forward(t, x)`: build the spline over `(t, x)`, integrate
the CDE field from `embed(spline.evaluate(t[0]))` over the whole time tensor,
and apply the read-out to `out[1]` — the solver state at `t[1]`. -/
def casual_encoder_forward {H : Type} (M : EncoderNets H) (t : ℕ → ℚ)
    (x : ℕ → ℕ → ℚ) (T : ℕ) : H :=
  M.readout
    (M.odeint (vector_field_forward M t x T)
      (M.embed (fun c => evaluate_vec t x T (t 0) c)) t T 1)

/-- C1 (amended): `CasualEncoder.forward` builds one spline over the path,
integrates the CDE field from `embed(spline.evaluate(t[0]))` across the
observed time tensor, and applies the read-out to the state at the SECOND
timestamp `t[1]` of that integration — which is the terminal state exactly
when `T = 2`. -/
theorem C1_encoder_reads_state_at_second_time {H : Type} (M : EncoderNets H)
    (t : ℕ → ℚ) (x : ℕ → ℕ → ℚ) (T : ℕ) (h2 : 2 ≤ T) :
    casual_encoder_forward M t x T =
      M.readout
        (M.odeint (vector_field_forward M t x T)
          (M.embed (fun c => evaluate_vec t x T (t 0) c)) t T 1) ∧
    (T = 2 →
      casual_encoder_forward M t x T =
        M.readout
          (M.odeint (vector_field_forward M t x T)
            (M.embed (fun c => evaluate_vec t x T (t 0) c)) t T (T - 1))) := by
  refine ⟨rfl, fun hT => ?_⟩
  subst hT
  rfl

/-- A concrete encoder over `H = ℚ`: identity-style networks and a solver that
is exact for constant vector fields (`z(τ) = z0 + (τ - t0) · field(t0, z0)`). -/
def exactConstSolver : EncoderNets ℚ where
  embed := fun v => v 0
  readout := fun z => z
  cde := fun _ dXdt => dXdt 0
  odeint := fun field z0 t _ i => z0 + (t i - t 0) * field (t 0) z0

/-- Witness for C1 with `T = 2`, where `out[1]` is the terminal state. -/
theorem C1_encoder_reads_state_at_second_time_witness :
    2 ≤ 2 ∧
      casual_encoder_forward exactConstSolver (fun j => (j : ℚ)) (fun j _ => (j : ℚ)) 2 =
        exactConstSolver.readout
          (exactConstSolver.odeint
            (vector_field_forward exactConstSolver (fun j => (j : ℚ)) (fun j _ => (j : ℚ)) 2)
            (exactConstSolver.embed
              (fun c => evaluate_vec (fun j => (j : ℚ)) (fun j _ => (j : ℚ)) 2
                ((fun j => (j : ℚ)) 0) c))
            (fun j => (j : ℚ)) 2 (2 - 1)) :=
  ⟨by norm_num,
    (C1_encoder_reads_state_at_second_time exactConstSolver (fun j => (j : ℚ))
      (fun j _ => (j : ℚ)) 2 (by norm_num)).2 rfl⟩

/-- C1 counterexample: for the observed path `x = (0, 1, 2)` over times
`t = (0, 1, 2)` (so `T = 3`), with identity-style networks and a solver that is
exact on this (constant) vector field, `CasualEncoder.forward` returns the
state at `t[1]` (namely `1`), not the read-out of the terminal state at
`t[T-1]` (namely `2`). -/
theorem C1_counterexample :
    casual_encoder_forward exactConstSolver (fun j => (j : ℚ)) (fun j _ => (j : ℚ)) 3 ≠
      exactConstSolver.readout
        (exactConstSolver.odeint
          (vector_field_forward exactConstSolver (fun j => (j : ℚ)) (fun j _ => (j : ℚ)) 3)
          (exactConstSolver.embed
            (fun c => evaluate_vec (fun j => (j : ℚ)) (fun j _ => (j : ℚ)) 3
              ((fun j => (j : ℚ)) 0) c))
          (fun j => (j : ℚ)) 3 (3 - 1)) := by
  have heval : evaluate (fun j => (j : ℚ)) (fun j => (j : ℚ)) 3 0 = 0 := by
    norm_num [evaluate, coeffs_a, coeffs_b, coeffs_two_c, coeffs_three_d, knot_derivatives,
      interpret_index, fractional_part, tridiagonal_solve, backSub, elimDiag, elimRhs,
      system_rhs, system_diagonal, path_diffs_scaled, three_path_diffs,
      time_diffs_reciprocal, time_diffs]
  have hderiv : derivative (fun j => (j : ℚ)) (fun j => (j : ℚ)) 3 0 = 1 := by
    norm_num [derivative, coeffs_b, coeffs_two_c, coeffs_three_d, knot_derivatives,
      interpret_index, fractional_part, tridiagonal_solve, backSub, elimDiag, elimRhs,
      system_rhs, system_diagonal, path_diffs_scaled, three_path_diffs,
      time_diffs_reciprocal, time_diffs]
  simp only [casual_encoder_forward, exactConstSolver, vector_field_forward,
    evaluate_vec, derivative_vec]
  norm_num [heval, hderiv]

/-! ### `ConditionalCNF.forward` (C7)

The state is the pair `(z, delta_logpz)` with `z` of shape
`(batch, seq_len, input_dim)` and `delta_logpz` of shape `(batch, seq_len)`
(shapes carried by `Fin` types).  The learned drift and the adjoint solver are
abstracted as `odeint`, which takes the held condition, the initial pair and
the integration times and returns the joint trajectory indexed by time point.
When exactly two integration times are given the source keeps only index 1 of
each trajectory; otherwise it returns the full trajectories. -/

def CNFState (B S D : ℕ) : Type :=
  (Fin B → Fin S → Fin D → ℚ) × (Fin B → Fin S → ℚ)

/-- `ConditionalCNF.forward(z, condition, delta_logpz=None,
integration_times=None, reverse=False)`. -/
def conditional_cnf_forward {B S D : ℕ} {Ct : Type}
    (odeint : Ct → CNFState B S D → List ℚ → ℕ → CNFState B S D)
    (z : Fin B → Fin S → Fin D → ℚ) (condition : Ct)
    (delta_logpz : Option (Fin B → Fin S → ℚ)) (integration_times : Option (List ℚ))
    (rev : Bool) : (ℕ → CNFState B S D) ⊕ CNFState B S D :=
  let dlp : Fin B → Fin S → ℚ := delta_logpz.getD fun _ _ => 0
  let its0 : List ℚ := integration_times.getD [0, 1]
  let its : List ℚ := if rev then its0.reverse else its0
  let state : ℕ → CNFState B S D := odeint condition (z, dlp) its
  if its.length = 2 then Sum.inr (state 1) else Sum.inl state

/-- C7: in `ConditionalCNF.forward`, an omitted `delta_logpz` is initialised
to zeros of shape `(batch, seq_len)` (the leading shape of `z`); omitted
integration times default to `[0, 1]`; `reverse=True` flips the integration
times end-for-end; and with exactly two integration times only the terminal
`(z, delta_logpz)` pair (index 1 of the joint trajectory) is returned. -/
theorem C7_cnf_forward_contract {B S D : ℕ} {Ct : Type}
    (odeint : Ct → CNFState B S D → List ℚ → ℕ → CNFState B S D)
    (z : Fin B → Fin S → Fin D → ℚ) (condition : Ct)
    (dlp : Option (Fin B → Fin S → ℚ)) (its : Option (List ℚ)) (rev : Bool) (a b : ℚ) :
    (conditional_cnf_forward odeint z condition none its rev =
        conditional_cnf_forward odeint z condition (some fun _ _ => 0) its rev) ∧
    (conditional_cnf_forward odeint z condition dlp none rev =
        conditional_cnf_forward odeint z condition dlp (some [0, 1]) rev) ∧
    (conditional_cnf_forward odeint z condition dlp its true =
        conditional_cnf_forward odeint z condition dlp
          (some ((its.getD [0, 1]).reverse)) false) ∧
    (conditional_cnf_forward odeint z condition dlp (some [a, b]) false =
        Sum.inr (odeint condition (z, dlp.getD fun _ _ => 0) [a, b] 1)) :=
  ⟨rfl, rfl, rfl, rfl⟩

/-! ### `TrajCNF` (C8, C10)

The construction registers the two base-distribution buffers; the GRU encoder,
the multivariate-normal log-density / sampler and the flow solver are
abstract parameters.  Each operation is modelled state-passing style,
returning the buffer state it finishes with, so that buffer mutation (or its
absence) is visible in the embedding. -/

structure TrajCNFBuffers (S D : ℕ) where
  /-- Buffer `base_dist_mean`, registered at construction. -/
  base_dist_mean : Fin S → Fin D → ℚ
  /-- Buffer `base_dist_var`, registered at construction. -/
  base_dist_var : Fin S → Fin D → ℚ

/-- `TrajCNF.__init__`: `base_dist_mean = zeros(seq_len, input_dim)`,
`base_dist_var = ones(seq_len, input_dim)`. -/
def trajcnf_init (S D : ℕ) : TrajCNFBuffers S D :=
  ⟨fun _ _ => 0, fun _ _ => 1⟩

/-- `TrajCNF.log_prob(z_t0, delta_logpz)`:
`logpz_t0 = _base_dist.log_prob(z_t0)` and `logpz_t1 = logpz_t0 - delta_logpz`,
where the base distribution is built from the two buffers and its `log_prob`
is the abstract `mvn_log_prob`. -/
def trajcnf_log_prob {B S D : ℕ}
    (mvn_log_prob : (Fin S → Fin D → ℚ) → (Fin S → Fin D → ℚ) →
      (Fin B → Fin S → Fin D → ℚ) → Fin B → Fin S → ℚ)
    (m : TrajCNFBuffers S D) (z_t0 : Fin B → Fin S → Fin D → ℚ)
    (delta_logpz : Fin B → Fin S → ℚ) :
    ((Fin B → Fin S → ℚ) × (Fin B → Fin S → ℚ)) × TrajCNFBuffers S D :=
  ((mvn_log_prob m.base_dist_mean m.base_dist_var z_t0,
    fun b s => mvn_log_prob m.base_dist_mean m.base_dist_var z_t0 b s - delta_logpz b s),
   m)

/-- `TrajCNF.forward(x, y, feat)`: embed the observed path, then run the flow
with default `delta_logpz` and integration times (hence the terminal pair is
returned; the trajectory branch of the sum is unreachable). -/
def trajcnf_forward {B S D : ℕ} {Xt Ft Ct : Type}
    (embedding_net : Xt → Ft → Ct)
    (odeint : Ct → CNFState B S D → List ℚ → ℕ → CNFState B S D)
    (m : TrajCNFBuffers S D) (x : Xt) (y : Fin B → Fin S → Fin D → ℚ) (feat : Ft) :
    CNFState B S D × TrajCNFBuffers S D :=
  ((match conditional_cnf_forward odeint y (embedding_net x feat) none none false with
    | Sum.inr p => p
    | Sum.inl traj => traj 1), m)

/-- `TrajCNF.sample(x, feat, num_samples)`: draw `num_samples` base samples
from the base distribution built from the buffers (`base_sampler` abstracts
`_base_dist.sample()`), embed the observed path once, and run the flow in
reverse with default times. -/
def trajcnf_sample {S D : ℕ} {Xt Ft Ct : Type} (num_samples : ℕ)
    (embedding_net : Xt → Ft → Ct)
    (odeint : Ct → CNFState num_samples S D → List ℚ → ℕ → CNFState num_samples S D)
    (base_sampler : (Fin S → Fin D → ℚ) → (Fin S → Fin D → ℚ) → ℕ → Fin S → Fin D → ℚ)
    (m : TrajCNFBuffers S D) (x : Xt) (feat : Ft) :
    ((Fin num_samples → Fin S → Fin D → ℚ) × CNFState num_samples S D) ×
      TrajCNFBuffers S D :=
  let y : Fin num_samples → Fin S → Fin D → ℚ :=
    fun n => base_sampler m.base_dist_mean m.base_dist_var n
  ((y, match conditional_cnf_forward odeint y (embedding_net x feat) none none true with
       | Sum.inr p => p
       | Sum.inl traj => traj 1), m)

/-- C8: `TrajCNF.log_prob(z_t0, delta_logpz)` returns exactly the pair
`(log p_base(z_t0), log p_base(z_t0) - delta_logpz)` with `p_base` built from
the buffers of the model; the second component is the first minus `delta_logpz`,
entry for entry. -/
theorem C8_log_prob_pair {B S D : ℕ}
    (mvn_log_prob : (Fin S → Fin D → ℚ) → (Fin S → Fin D → ℚ) →
      (Fin B → Fin S → Fin D → ℚ) → Fin B → Fin S → ℚ)
    (m : TrajCNFBuffers S D) (z_t0 : Fin B → Fin S → Fin D → ℚ)
    (delta_logpz : Fin B → Fin S → ℚ) :
    ((trajcnf_log_prob mvn_log_prob m z_t0 delta_logpz).1.1 =
        mvn_log_prob m.base_dist_mean m.base_dist_var z_t0) ∧
    (∀ b s, (trajcnf_log_prob mvn_log_prob m z_t0 delta_logpz).1.2 b s =
        (trajcnf_log_prob mvn_log_prob m z_t0 delta_logpz).1.1 b s - delta_logpz b s) :=
  ⟨rfl, fun _ _ => rfl⟩

/-- C10: the base distribution of `TrajCNF` is the standard Gaussian: the
buffers are initialised to zeros and ones of shape `(seq_len, input_dim)`, no
public operation (`forward`, `sample`, `log_prob`) changes them, and both
`sample` and `log_prob` on the freshly constructed model read the
zero-mean, unit-variance buffers. -/
theorem C10_fixed_standard_base {B S D ns : ℕ} {Xt Ft Ct : Type}
    (embedding_net : Xt → Ft → Ct)
    (odeintF : Ct → CNFState B S D → List ℚ → ℕ → CNFState B S D)
    (odeintS : Ct → CNFState ns S D → List ℚ → ℕ → CNFState ns S D)
    (base_sampler : (Fin S → Fin D → ℚ) → (Fin S → Fin D → ℚ) → ℕ → Fin S → Fin D → ℚ)
    (mvn_log_prob : (Fin S → Fin D → ℚ) → (Fin S → Fin D → ℚ) →
      (Fin B → Fin S → Fin D → ℚ) → Fin B → Fin S → ℚ)
    (x : Xt) (feat : Ft) (y : Fin B → Fin S → Fin D → ℚ)
    (z_t0 : Fin B → Fin S → Fin D → ℚ) (delta_logpz : Fin B → Fin S → ℚ) :
    ((trajcnf_init S D).base_dist_mean = fun _ _ => 0) ∧
    ((trajcnf_init S D).base_dist_var = fun _ _ => 1) ∧
    (∀ m, (trajcnf_forward embedding_net odeintF m x y feat).2 = m) ∧
    (∀ m, (trajcnf_sample ns embedding_net odeintS base_sampler m x feat).2 = m) ∧
    (∀ m, (trajcnf_log_prob mvn_log_prob m z_t0 delta_logpz).2 = m) ∧
    ((trajcnf_log_prob mvn_log_prob (trajcnf_init S D) z_t0 delta_logpz).1.1 =
        mvn_log_prob (fun _ _ => 0) (fun _ _ => 1) z_t0) ∧
    ((trajcnf_sample ns embedding_net odeintS base_sampler (trajcnf_init S D) x feat).1.1 =
        fun n : Fin ns => base_sampler (fun _ _ => 0) (fun _ _ => 1) n) :=
  ⟨rfl, rfl, fun _ => rfl, fun _ => rfl, fun _ => rfl, rfl, rfl⟩

end TrajFlow
